import Mathlib

/-!
Verification of the RustQuant reverse-mode automatic-differentiation core
and its neighbouring modules (gradient selectors, ML activations, the
exponential distribution), as a shallow embedding in Lean.

Machine floating-point values are modelled by an arbitrary field `α`
(instantiated at `ℚ` in concrete evaluations); transcendental intrinsics
such as `exp` are passed as explicit function parameters.
-/

namespace RustQuant

/-- One recorded operation on the tape: the eagerly computed forward
value and the list of `(parent index, local partial derivative)` pairs. -/
structure Node (α : Type) where
  value : α
  parents : List (Nat × α)
deriving DecidableEq

/-- A lightweight handle: cached forward value plus an index into the
owning graph's node arena. -/
structure Variable (α : Type) where
  value : α
  index : Nat
deriving DecidableEq

/-- The node arena owned by a graph: an append-only, insertion-ordered
sequence of nodes, identified by position. -/
abbrev Arena (α : Type) := List (Node α)

namespace Graph

/-- Modelled from the spec: `Graph::push` is missing from the sources
(only its callers are present).  Per §4.1 it appends a node holding the
given forward value and parent/partial pairs and returns a handle whose
index is the node's position in the arena. -/
def push {α : Type} (g : Arena α) (value : α) (ps : List (Nat × α)) :
    Variable α × Arena α :=
  (⟨value, g.length⟩, g ++ [⟨value, ps⟩])

/-- Modelled from the spec: `Graph::var` is missing from the sources.
Per §4.1 it appends a zero-parent (leaf) node with the given forward
value and returns a handle pointing at it. -/
def var {α : Type} (g : Arena α) (x : α) : Variable α × Arena α :=
  push g x []

end Graph

/-- Modelled from the spec: the `Mul` operator overload on `Variable` is
missing from the sources.  Per the §4.2 operation table, `a * b` pushes
a node with forward value `a*b` and partials `∂/∂a = b`, `∂/∂b = a`. -/
def mulVar {α : Type} [Field α] (g : Arena α) (x y : Variable α) :
    Variable α × Arena α :=
  Graph.push g (x.value * y.value) [(x.index, y.value), (y.index, x.value)]

/-- Modelled from the spec: the `Neg` operator overload on `Variable`.
Per §4.2, `-a` has forward value `-a` and partial `∂/∂a = -1`. -/
def negVar {α : Type} [Field α] (g : Arena α) (x : Variable α) :
    Variable α × Arena α :=
  Graph.push g (-x.value) [(x.index, -1)]

/-- Modelled from the spec: the `exp` elementary function on `Variable`.
Per §4.2, `exp a` has forward value `exp a` and partial `exp a`; the
floating-point `exp` intrinsic is abstracted as a parameter. -/
def expVar {α : Type} [Field α] (exp : α → α) (g : Arena α)
    (x : Variable α) : Variable α × Arena α :=
  Graph.push g (exp x.value) [(x.index, exp x.value)]

/-- Modelled from the spec: the `Variable + f64` operator overload.
Per §4.2 the scalar contributes no parent, only the folded forward value;
the partial with respect to the variable operand is `1`. -/
def addConstVar {α : Type} [Field α] (g : Arena α) (x : Variable α)
    (c : α) : Variable α × Arena α :=
  Graph.push g (x.value + c) [(x.index, 1)]

/-- Modelled from the spec: the `recip` elementary function on
`Variable`.  Per §4.2, `1/a` has partial `∂/∂a = -1/a²`. -/
def recipVar {α : Type} [Field α] (g : Arena α) (x : Variable α) :
    Variable α × Arena α :=
  Graph.push g x.value⁻¹ [(x.index, -(x.value ^ 2)⁻¹)]

/-- The parent/partial pairs recorded on node `i`, or `[]` out of
bounds. -/
def nodeParents {α : Type} (nodes : Arena α) (i : Nat) : List (Nat × α) :=
  match nodes[i]? with
  | some nd => nd.parents
  | none => []

/-- One reverse-sweep step at node `i`: for each recorded
`(parent, p)` pair do `adj[parent] += adj[i] * p`. -/
def propagate {α : Type} [Field α] (nodes : Arena α) (adj : List α)
    (i : Nat) : List α :=
  (nodeParents nodes i).foldl
    (fun a pp => a.set pp.1 (a.getD pp.1 0 + a.getD i 0 * pp.2)) adj

/-- Sweep node indices from `i` down to `0`, propagating adjoints. -/
def sweepAux {α : Type} [Field α] (nodes : Arena α) :
    Nat → List α → List α
  | 0, adj => propagate nodes adj 0
  | i + 1, adj => sweepAux nodes i (propagate nodes adj (i + 1))

/-- Modelled from the spec: `Variable::accumulate` is missing from the
sources (only its test callers are present).  Per §4.3: allocate a dense
adjoint vector of length `n` of zeros, seed entry `k` with `1`, then
sweep node indices from `k` down to `0`, adding `adj[i] * partial` into
each parent's adjoint. -/
def accumulate {α : Type} [Field α] (nodes : Arena α) (k : Nat) :
    List α :=
  sweepAux nodes k ((List.replicate nodes.length 0).set k 1)

/-- The adjoint vector exactly as claim C1 words the procedure: a
length-`n` zero vector with entry `k` set to `1`, folded through the
per-node propagation step over the indices `k, k-1, ..., 0`. -/
def adjointSpec {α : Type} [Field α] (nodes : Arena α) (k : Nat) :
    List α :=
  (List.range (k + 1)).reverse.foldl (propagate nodes)
    ((List.replicate nodes.length 0).set k 1)

/-- `wrt` a single variable (gradient.rs line 32): `self[variable.index]`,
with the out-of-bounds panic modelled as `none`. -/
def wrt {α : Type} (adj : List α) (v : Variable α) : Option α :=
  adj[v.index]?

/-- `wrt` a borrowed vector of variables (gradient.rs line 40):
`variables.iter().map(|&var| self[var.index]).collect()`. -/
def wrtVec {α : Type} (adj : List α) (vs : List (Variable α)) :
    Option (List α) :=
  vs.mapM (fun v => adj[v.index]?)

/-- `wrt` a borrowed slice of variables (gradient.rs line 48): same body
as the borrowed-vector implementation. -/
def wrtSlice {α : Type} (adj : List α) (vs : List (Variable α)) :
    Option (List α) :=
  vs.mapM (fun v => adj[v.index]?)

/-- `wrt` an array of variables (gradient.rs line 56): same body again,
over a fixed-size array. -/
def wrtArray {α : Type} (adj : List α) (vs : List (Variable α)) :
    Option (List α) :=
  vs.mapM (fun v => adj[v.index]?)

/-- `wrt` a borrowed array of variables (gradient.rs line 64): same body
again. -/
def wrtArrayRef {α : Type} (adj : List α) (vs : List (Variable α)) :
    Option (List α) :=
  vs.mapM (fun v => adj[v.index]?)

/-- Graph states reachable by construction: the empty graph, a `var`
append, or an operator-induced `push` whose parent indices refer to
already-existing nodes (as every operator receives live handles whose
indices point into the arena). -/
inductive Reachable {α : Type} : Arena α → Prop
  | empty : Reachable []
  | varStep (g : Arena α) (x : α) : Reachable g → Reachable (Graph.var g x).2
  | pushStep (g : Arena α) (x : α) (ps : List (Nat × α)) : Reachable g →
      (∀ pp ∈ ps, pp.1 < g.length) → Reachable (Graph.push g x ps).2

/-- Executable check that every node's recorded parent indices are
strictly smaller than the node's own index. -/
def parentsBelow {α : Type} (g : Arena α) : Bool :=
  (List.range g.length).all fun i => (nodeParents g i).all fun pp => pp.1 < i

/-- The leaf `x = 1.0` of the gradient.rs `test_borrowed_vector`
example, on a fresh graph. -/
def xEx : Variable ℚ := (Graph.var ([] : Arena ℚ) 1).1

/-- Arena after creating `x`. -/
def gEx1 : Arena ℚ := (Graph.var ([] : Arena ℚ) 1).2

/-- The leaf `y = 2.0` of the example. -/
def yEx : Variable ℚ := (Graph.var gEx1 2).1

/-- Arena after creating `y`. -/
def gEx2 : Arena ℚ := (Graph.var gEx1 2).2

/-- The output `z = x * y` of the example. -/
def zEx : Variable ℚ := (mulVar gEx2 xEx yEx).1

/-- Arena after recording `z = x * y`. -/
def gEx : Arena ℚ := (mulVar gEx2 xEx yEx).2

/-- f64 sigmoid (activations.rs line 79): `1.0 / (1.0 + (-self).exp())`,
with the floating-point `exp` intrinsic abstracted as a parameter. -/
def sigmoidF64 {α : Type} [Field α] (exp : α → α) (x : α) : α :=
  1 / (1 + exp (-x))

/-- f64 logistic (activations.rs line 89): `1.0 / (1.0 + (-self).exp())`,
the same expression as `sigmoidF64`. -/
def logisticF64 {α : Type} [Field α] (exp : α → α) (x : α) : α :=
  1 / (1 + exp (-x))

/-- Variable sigmoid (activations.rs line 37):
`((-(*self)).exp() + 1_f64).recip()`, recorded on the tape. -/
def sigmoidVar {α : Type} [Field α] (exp : α → α) (g : Arena α)
    (v : Variable α) : Variable α × Arena α :=
  let r1 := negVar g v
  let r2 := expVar exp r1.2 r1.1
  let r3 := addConstVar r2.2 r2.1 1
  recipVar r3.2 r3.1

/-- Variable logistic (activations.rs line 47):
`((-(*self)).exp() + 1_f64).recip()`, the same body as `sigmoidVar`. -/
def logisticVar {α : Type} [Field α] (exp : α → α) (g : Arena α)
    (v : Variable α) : Variable α × Arena α :=
  let r1 := negVar g v
  let r2 := expVar exp r1.2 r1.1
  let r3 := addConstVar r2.2 r2.1 1
  recipVar r3.2 r3.1

/-- Exponential distribution (exponential.rs line 15): rate field. -/
structure Exponential where
  lambda : ℚ
deriving DecidableEq

/-- `Exponential::new` (exponential.rs line 26): `assert!(lambda > 0.0)`
then construct; the assertion failure is modelled as `none`. -/
def Exponential.new (lambda : ℚ) : Option Exponential :=
  if 0 < lambda then some ⟨lambda⟩ else none

lemma foldl_set_length {α : Type} [Field α] (ps : List (Nat × α)) (i : Nat) :
    ∀ adj : List α,
      (ps.foldl (fun a pp => a.set pp.1 (a.getD pp.1 0 + a.getD i 0 * pp.2))
          adj).length = adj.length := by
  induction ps with
  | nil => intro adj; rfl
  | cons hd tl ih =>
      intro adj
      rw [List.foldl_cons, ih, List.length_set]

lemma propagate_length {α : Type} [Field α] (nodes : Arena α)
    (adj : List α) (i : Nat) : (propagate nodes adj i).length = adj.length :=
  foldl_set_length (nodeParents nodes i) i adj

lemma sweepAux_length {α : Type} [Field α] (nodes : Arena α) (i : Nat) :
    ∀ adj : List α, (sweepAux nodes i adj).length = adj.length := by
  induction i with
  | zero => intro adj; exact propagate_length nodes adj 0
  | succ i ih =>
      intro adj
      rw [sweepAux, ih, propagate_length]

lemma sweepAux_eq_foldl {α : Type} [Field α] (nodes : Arena α) (i : Nat) :
    ∀ adj : List α,
      sweepAux nodes i adj =
        (List.range (i + 1)).reverse.foldl (propagate nodes) adj := by
  induction i with
  | zero => intro adj; simp [sweepAux, List.range_succ]
  | succ i ih =>
      intro adj
      rw [sweepAux, ih, List.range_succ (i + 1), List.reverse_append]
      simp

/-- C1: `accumulate` on output index `k` over an arena of `n` nodes
returns exactly the vector obtained by zero-initialising a length-`n`
adjoint vector, seeding entry `k` with `1`, and folding the per-node
propagation step (`adj[parent] += adj[i] * partial` for each recorded
parent/partial pair) over the node indices `k` down to `0` in strictly
decreasing order. -/
theorem accumulate_eq_adjointSpec {α : Type} [Field α] (nodes : Arena α)
    (k : Nat) : accumulate nodes k = adjointSpec nodes k :=
  sweepAux_eq_foldl nodes k ((List.replicate nodes.length 0).set k 1)

/-- C2: the gradient vector returned by one `accumulate` call has
exactly as many entries as there are nodes in the arena at the time of
the call, for every arena and every output index. -/
theorem accumulate_length {α : Type} [Field α] (nodes : Arena α)
    (k : Nat) : (accumulate nodes k).length = nodes.length := by
  rw [accumulate, sweepAux_length, List.length_set, List.length_replicate]

lemma nodeParents_append_lt {α : Type} (g : Arena α) (nd : Node α)
    {i : Nat} (h : i < g.length) :
    nodeParents (g ++ [nd]) i = nodeParents g i := by
  rw [nodeParents, nodeParents, List.getElem?_append_left h]

lemma nodeParents_append_self {α : Type} (g : Arena α) (nd : Node α) :
    nodeParents (g ++ [nd]) g.length = nd.parents := by
  rw [nodeParents, List.getElem?_concat_length]

lemma nodeParents_append_gt {α : Type} (g : Arena α) (nd : Node α)
    {i : Nat} (h : g.length < i) : nodeParents (g ++ [nd]) i = [] := by
  rw [nodeParents, List.getElem?_eq_none]
  simp [List.length_append]
  omega

lemma parents_lt_append {α : Type} {g : Arena α} {ps : List (Nat × α)}
    {x : α} (ih : ∀ i, ∀ pp ∈ nodeParents g i, pp.1 < i)
    (hps : ∀ pp ∈ ps, pp.1 < g.length) :
    ∀ i, ∀ pp ∈ nodeParents (g ++ [⟨x, ps⟩]) i, pp.1 < i := by
  intro i pp hpp
  rcases Nat.lt_trichotomy i g.length with hlt | heq | hgt
  · rw [nodeParents_append_lt g _ hlt] at hpp
    exact ih i pp hpp
  · subst heq
    rw [nodeParents_append_self] at hpp
    exact hps pp hpp
  · rw [nodeParents_append_gt g _ hgt] at hpp
    exact absurd hpp (List.not_mem_nil pp)

lemma reachable_parents_lt {α : Type} {g : Arena α} (hg : Reachable g) :
    ∀ i, ∀ pp ∈ nodeParents g i, pp.1 < i := by
  induction hg with
  | empty => intro i pp hpp; simp [nodeParents] at hpp
  | varStep g x hgr ih => exact parents_lt_append ih (by simp)
  | pushStep g x ps hgr hps ih => exact parents_lt_append ih hps

lemma parentsBelow_of_forall {α : Type} {g : Arena α}
    (h : ∀ i, ∀ pp ∈ nodeParents g i, pp.1 < i) : parentsBelow g = true := by
  rw [parentsBelow, List.all_eq_true]
  intro i hi
  rw [List.all_eq_true]
  intro pp hpp
  exact decide_eq_true (h i pp hpp)

/-- C3: in every reachable graph state (empty graph, then any sequence
of `var` appends and operator-induced pushes whose parents are existing
nodes), every node's recorded parent indices are strictly smaller than
the node's own index, and the next `var` is assigned index equal to the
current arena size, i.e. strictly larger than every existing index — so
no cycle is representable. -/
theorem reachable_parents_strictly_below {α : Type} (g : Arena α)
    (hg : Reachable g) :
    parentsBelow g = true ∧ ∀ x : α, (Graph.var g x).1.index = g.length :=
  ⟨parentsBelow_of_forall (reachable_parents_lt hg), fun _ => rfl⟩

lemma reachable_gEx : Reachable gEx := by
  have h1 : Reachable gEx1 := Reachable.varStep [] 1 Reachable.empty
  have h2 : Reachable gEx2 := Reachable.varStep gEx1 2 h1
  exact Reachable.pushStep gEx2 (xEx.value * yEx.value)
    [(xEx.index, yEx.value), (yEx.index, xEx.value)] h2 (by decide)

/-- Witness for C3: the concrete three-node arena `x = 1, y = 2,
z = x * y` is reachable, all its parent indices point strictly below,
and a fresh leaf would get index `3`. -/
theorem reachable_parents_strictly_below_w :
    parentsBelow gEx = true ∧ (Graph.var gEx (3 : ℚ)).1.index = gEx.length :=
  ⟨(reachable_parents_strictly_below gEx reachable_gEx).1,
   (reachable_parents_strictly_below gEx reachable_gEx).2 3⟩

/-- C4: on a fresh graph with leaves `x = 1` and `y = 2` and
`z = x * y`, the forward value of `z` is `2`, and the gradient returned
by `accumulate` is `2` with respect to `x` and `1` with respect to
`y`. -/
theorem mul_example_gradient :
    zEx.value = 2 ∧ wrt (accumulate gEx zEx.index) xEx = some 2 ∧
      wrt (accumulate gEx zEx.index) yEx = some 1 := by
  have hacc : accumulate gEx zEx.index = [2, 1, 1] := by
    simp [gEx, zEx, xEx, yEx, gEx1, gEx2, accumulate, sweepAux, propagate,
      nodeParents, mulVar, Graph.var, Graph.push, List.replicate, List.set,
      List.getD]
    rfl
  refine ⟨?_, ?_, ?_⟩
  · show (1 : ℚ) * 2 = 2
    norm_num
  · rw [hacc]; rfl
  · rw [hacc]; rfl

/-- C5: the four sequence-shaped `wrt` selector implementations
(borrowed vector, borrowed slice, array, borrowed array) agree on every
adjoint vector and every variable sequence, and each is exactly the
positional per-entry application of the single-variable `wrt`. -/
theorem wrt_selector_equivalence {α : Type} (adj : List α)
    (vs : List (Variable α)) :
    wrtVec adj vs = wrtSlice adj vs ∧ wrtSlice adj vs = wrtArray adj vs ∧
      wrtArray adj vs = wrtArrayRef adj vs ∧
      wrtVec adj vs = vs.mapM (wrt adj) :=
  ⟨rfl, rfl, rfl, rfl⟩

lemma mapM_getElem_eq_map {α : Type} [Inhabited α] (adj : List α) :
    ∀ vs : List (Variable α), (∀ u ∈ vs, u.index < adj.length) →
      vs.mapM (fun v => adj[v.index]?) =
        some (vs.map fun u => adj.getD u.index default) := by
  intro vs
  induction vs with
  | nil => intro _; rfl
  | cons hd tl ih =>
      intro h
      rw [List.mapM_cons, ih (fun u hu => h u (List.mem_cons_of_mem hd hu))]
      have hhd : hd.index < adj.length := h hd (List.mem_cons_self hd tl)
      rw [List.getElem?_eq_getElem hhd]
      simp [List.getD_eq_getElem?_getD, List.getElem?_eq_getElem hhd]

/-- C6: for an in-bounds variable, `wrt` returns exactly the adjoint
entry at the variable's index; for an in-bounds sequence, `wrt` returns
the sequence whose i-th entry is the adjoint entry at the i-th input
variable's index — same order, duplicates preserved positionally. -/
theorem wrt_is_indexed_lookup {α : Type} [Inhabited α] (adj : List α)
    (v : Variable α) (vs : List (Variable α)) (hv : v.index < adj.length)
    (hvs : ∀ u ∈ vs, u.index < adj.length) :
    wrt adj v = some adj[v.index] ∧
      wrtVec adj vs = some (vs.map fun u => adj.getD u.index default) :=
  ⟨List.getElem?_eq_getElem hv, mapM_getElem_eq_map adj vs hvs⟩

/-- Witness for C6: on the adjoint vector `[10, 20, 30]`, a variable
with index `1` reads `20`, and the duplicated sequence with indices
`[1, 0, 1]` reads `[20, 10, 20]`. -/
theorem wrt_is_indexed_lookup_w :
    wrt ([10, 20, 30] : List ℚ) ⟨5, 1⟩ = some 20 ∧
      wrtVec ([10, 20, 30] : List ℚ) [⟨5, 1⟩, ⟨7, 0⟩, ⟨5, 1⟩] =
        some [20, 10, 20] :=
  wrt_is_indexed_lookup ([10, 20, 30] : List ℚ) ⟨5, 1⟩
    [⟨5, 1⟩, ⟨7, 0⟩, ⟨5, 1⟩] (by decide) (by decide)

/-- C7: `wrt` succeeds exactly on in-bounds variable indices and fails
(models the indexing panic as `none`) exactly when the variable's index
reaches the adjoint vector's length; being a pure lookup it mutates
nothing. -/
theorem wrt_oob {α : Type} (adj : List α) (v : Variable α) :
    ((wrt adj v).isSome = true ↔ v.index < adj.length) ∧
      (wrt adj v = none ↔ adj.length ≤ v.index) := by
  constructor
  · constructor
    · intro h
      by_contra hc
      rw [wrt, List.getElem?_eq_none (Nat.le_of_not_lt hc)] at h
      simp at h
    · intro h
      rw [wrt, List.getElem?_eq_getElem h]
      rfl
  · constructor
    · intro h
      by_contra hc
      rw [wrt, List.getElem?_eq_getElem (Nat.lt_of_not_le hc)] at h
      simp at h
    · intro h
      exact List.getElem?_eq_none h

/-- C9: the sigmoid and logistic activations are the same function: the
f64 implementations are both `1 / (1 + exp (-x))`, the Variable
implementations are recorded identically, and the Variable forward
value coincides with the f64 result. -/
theorem sigmoid_eq_logistic {α : Type} [Field α] (exp : α → α) (x : α)
    (g : Arena α) (v : Variable α) :
    sigmoidF64 exp x = logisticF64 exp x ∧
      (sigmoidVar exp g v).1.value = (logisticVar exp g v).1.value ∧
      (sigmoidVar exp g v).1.value = sigmoidF64 exp v.value := by
  refine ⟨rfl, rfl, ?_⟩
  show (exp (-v.value) + 1)⁻¹ = 1 / (1 + exp (-v.value))
  rw [inv_eq_one_div, add_comm]

/-- C10: `Exponential::new` constructs a distribution exactly when the
rate is strictly positive (the `assert` failure is modelled as `none`),
so every constructed `Exponential` has a strictly positive rate. -/
theorem exponential_new_pos (lambda : ℚ) :
    ((Exponential.new lambda).isSome = true ↔ 0 < lambda) ∧
      ∀ e : Exponential, Exponential.new lambda = some e → 0 < e.lambda := by
  constructor
  · rw [Exponential.new]
    split <;> simp_all
  · intro e he
    rw [Exponential.new] at he
    split at he
    · cases he
      assumption
    · cases he

/-- Witness for C10: `Exponential::new 1` succeeds and the constructed
distribution's rate is strictly positive. -/
theorem exponential_new_pos_w :
    (Exponential.new 1).isSome = true ∧ (0 : ℚ) < (Exponential.mk 1).lambda :=
  ⟨((exponential_new_pos 1).1).mpr one_pos,
   (exponential_new_pos 1).2 ⟨1⟩ (by decide)⟩

end RustQuant
